import Mathlib

/-!
Verification of the FiveTwelve game model (`model.py`).

The development shallowly embeds the model component of the game: `Vec`,
`Tile` and `Board` with its operations `slide`, `left`, `right`, `up`,
`down`, `to_list`, `from_list`, `_empty_positions`, `has_empty`,
`place_tile` and `score`.  Python integers are embedded as `Int`, the
grid `Board.tiles` as a list of lists of optional tiles, and the random
draws of `place_tile` as explicit parameters (an index into the list
returned by `random.choice`, and a rational for `random.random()`).
Exceptions (`IndexError`, `AssertionError`) are embedded as `none` in an
`Option` result.
-/

namespace FiveTwelve

/-- Embeds `model.Vec`: an (row, col) pair of Python integers. -/
structure Vec where
  row : Int
  col : Int
deriving DecidableEq, Repr

/-- Embeds `Vec.__add__`: componentwise sum. -/
instance : Add Vec := ⟨fun a b => ⟨a.row + b.row, a.col + b.col⟩⟩

/-- Embeds `model.Tile`: stored position (`row`, `col`) and `value`.
The listener set of `GameElement` is omitted: notifications have no
effect on the model state. -/
structure Tile where
  row : Int
  col : Int
  value : Int
deriving DecidableEq, Repr

/-- The grid `Board.tiles`: a list of rows, each row a list of cells,
a cell being `None` or a `Tile`. -/
abbrev Grid := List (List (Option Tile))

/-- Embeds `model.Board` (listener set omitted, as for `Tile`). -/
structure Board where
  rows : Nat
  cols : Nat
  tiles : Grid
deriving DecidableEq, Repr

/-- Embeds `Board.__init__(rows, cols)`: a rows x cols grid of `None`. -/
def Board.init (rows cols : Nat) : Board :=
  ⟨rows, cols, List.replicate rows (List.replicate cols none)⟩

/-- Python list indexing semantics for `xs[i]`: a valid non-negative
index is used as is, a negative index `i` with `-len <= i` wraps to
`len + i`, anything else raises `IndexError` (embedded as `none`). -/
def pyIdx (n : Nat) (i : Int) : Option Nat :=
  if 0 ≤ i ∧ i < (n : Int) then some i.toNat
  else if -(n : Int) ≤ i ∧ i < 0 then some ((n : Int) + i).toNat
  else none

/-- Python list read `xs[i]` with Python index semantics. -/
def pyListGet {α : Type} (xs : List α) (i : Int) : Option α :=
  (pyIdx xs.length i).bind fun k => xs[k]?

/-- Embeds `Board.__getitem__(pos)`, i.e. `self.tiles[pos.row][pos.col]`
with Python list-index semantics; `none` embeds a raised `IndexError`,
`some c` the returned cell `c` (which is itself `None` or a tile). -/
def Board.getItem (b : Board) (p : Vec) : Option (Option Tile) :=
  (pyListGet b.tiles p.row).bind fun r => pyListGet r p.col

/-- Grid read used by the movement logic.  Every read the model performs
during `slide` and the four moves is at an in-bounds position (the
initial position comes from the move loops over the grid ranges, each
later one is guarded by `in_bounds`), and at an in-bounds position this
agrees with `Board.getItem` (lemma `getItem_eq_getT`). -/
def Board.getT (b : Board) (p : Vec) : Option Tile :=
  match b.tiles[p.row.toNat]? with
  | none => none
  | some r =>
    match r[p.col.toNat]? with
    | none => none
    | some c => c

/-- Grid write `self.tiles[p.row][p.col] = c`; as for `Board.getT`,
every write the model performs is at an in-bounds position. -/
def Board.setT (b : Board) (p : Vec) (c : Option Tile) : Board :=
  { b with tiles := b.tiles.set p.row.toNat ((b.tiles.getD p.row.toNat []).set p.col.toNat c) }

/-- Embeds `Board.in_bounds(pos)`. -/
def Board.in_bounds (b : Board) (p : Vec) : Prop :=
  (0 ≤ p.row ∧ p.row < (b.rows : Int)) ∧ (0 ≤ p.col ∧ p.col < (b.cols : Int))

instance (b : Board) (p : Vec) : Decidable (b.in_bounds p) := by
  unfold Board.in_bounds
  exact inferInstance

/-- Embeds `Board._move_tile(old_pos, new_pos)`: if a tile is at
`old_pos`, update its stored position (`Tile.move_to`), store it at
`new_pos`, and clear `old_pos` — in that order, as in the source. -/
def Board.move_tile (b : Board) (old_pos new_pos : Vec) : Board :=
  match b.getT old_pos with
  | none => b
  | some t =>
    (b.setT new_pos (some { t with row := new_pos.row, col := new_pos.col })).setT old_pos none

/-- Embeds the `while True` loop of `Board.slide`, with explicit fuel.
One iteration: `new_pos = pos + dir`; stop if out of bounds; if the cell
at `new_pos` is empty, move the tile there and continue from `new_pos`;
if it holds a tile whose value equals the value of the tile at `pos`
(`Tile.__eq__` compares values), the tile at `pos` absorbs it
(`Tile.merge`: its value becomes the sum) and is moved into that slot
(`_move_tile`), and the loop stops; otherwise stop.  The inner `none`
branch (no tile at `pos`) is unreachable from `Board.slide`, which only
enters the loop with a tile at `pos`, and the loop keeps a tile at the
position it continues from. -/
def Board.slideLoop : Nat → Board → Vec → Vec → Board
  | 0, b, _, _ => b
  | fuel + 1, b, pos, dir =>
    let new_pos := pos + dir
    if b.in_bounds new_pos then
      match b.getT new_pos with
      | none => Board.slideLoop fuel (b.move_tile pos new_pos) new_pos dir
      | some t2 =>
        match b.getT pos with
        | some t1 =>
          if t1.value = t2.value then
            (b.setT new_pos (some ⟨new_pos.row, new_pos.col, t1.value + t2.value⟩)).setT pos none
          else b
        | none => b
    else b

/-- Embeds `Board.slide(pos, dir)`: no-op when no tile is at `pos`,
otherwise the loop.  The source loop is unbounded (`while True`); for
the four unit directions used by the moves it runs fewer than
`rows + cols` iterations (each continuing step moves one cell closer to
the target edge), so that fuel never runs out (lemma
`slideLoop_fuel_irrelevant`). -/
def Board.slide (b : Board) (pos dir : Vec) : Board :=
  match b.getT pos with
  | none => b
  | some _ => Board.slideLoop (b.rows + b.cols) b pos dir

/-- Embeds `Board.to_list()`: each cell as its tile value, 0 for empty. -/
def Board.to_list (b : Board) : List (List Int) :=
  b.tiles.map fun r =>
    r.map fun c =>
      match c with
      | none => 0
      | some t => t.value

/-- Embeds one write of `Board.from_list`:
`self.tiles[row][col] = None` when the value is 0, else a fresh
`Tile(Vec(row, col), v)`; `none` embeds an `IndexError` when the board
has no such slot. -/
def writeCell (g : Grid) (row col : Nat) (v : Int) : Option Grid :=
  match g[row]? with
  | none => none
  | some r =>
    if col < r.length then
      some (g.set row (r.set col (if v = 0 then none else some ⟨(row : Int), (col : Int), v⟩)))
    else none

/-- The inner loop of `Board.from_list`: `for col in range(nc)` writes
`values[row][col]` into the grid; reading past the end of `vrow`
embeds the `IndexError` of `values[row][col]`. -/
def writeCells (vrow : List Int) (row : Nat) : Grid → Nat → Nat → Option Grid
  | g, _, 0 => some g
  | g, col, k + 1 => do
    let v ← vrow[col]?
    let g' ← writeCell g row col v
    writeCells vrow row g' (col + 1) k

/-- The outer loop of `Board.from_list`: `for row in range(len(values))`,
processing the rows of `values` in order with their index. -/
def fromRows (nc : Nat) : Grid → Nat → List (List Int) → Option Grid
  | g, _, [] => some g
  | g, row, vrow :: rest => do
    let g' ← writeCells vrow row g 0 nc
    fromRows nc g' (row + 1) rest

/-- Embeds `Board.from_list(values)`: every position with
`row < len(values)` and `col < len(values[0])` is overwritten.  The
column count `len(values[0])` is fixed from the first row, as in the
source (it is only evaluated when `values` is nonempty, which `headD`
models since `fromRows` ignores `nc` on the empty list). -/
def Board.from_list (b : Board) (values : List (List Int)) : Option Board :=
  (fromRows (values.headD []).length b.tiles 0 values).map fun g => { b with tiles := g }

/-- Embeds `Board._empty_positions`.  The source guard is
`if col is not None:` where `col` is the integer loop index produced by
`range`, which is never `None`; the guard therefore always holds and
every in-range position is appended — not only the unoccupied ones that
the docstring of the source function promises. -/
def Board._empty_positions (b : Board) : List Vec :=
  (List.range b.tiles.length).flatMap fun (row : Nat) =>
    (List.range (b.tiles.getD row []).length).map fun (col : Nat) => Vec.mk (row : Int) (col : Int)

/-- Embeds `Board.has_empty()`: some cell is `None`. -/
def Board.has_empty (b : Board) : Bool :=
  b.tiles.any fun r => r.any fun c => c.isNone

/-- Embeds the value draw of `Board.place_tile` when no value is given:
`4` if `random.random() > 0.1` else `2`, with the draw `r` injected. -/
def drawValue (r : ℚ) : Int :=
  if r > 1 / 10 then 4 else 2

/-- The value stored by `place_tile`: the explicit argument when given,
the random draw otherwise. -/
def placedValue (value : Option Int) (r : ℚ) : Int :=
  match value with
  | some v => v
  | none => drawValue r

/-- Embeds `Board.place_tile(value)`.  The random draws are injected:
`i` selects `random.choice(empties)` as `empties[i % len(empties)]`
(every element is `empties[i]` for some `i < len(empties)`), and `r`
is the `random.random()` draw.  `none` embeds the `AssertionError` of
`assert len(empties) > 0`.  The new tile is written by
`self.tiles[row][col] = new_tile`. -/
def Board.place_tile (b : Board) (i : Nat) (r : ℚ) (value : Option Int) : Option Board :=
  let empties := b._empty_positions
  if empties.length = 0 then none
  else
    let choice := empties.getD (i % empties.length) ⟨0, 0⟩
    let v :=
      match value with
      | some v => v
      | none => drawValue r
    some (b.setT choice (some ⟨choice.row, choice.col, v⟩))

/-- Embeds `Board.right()`: rows in order, columns from
`self.cols - 1` down to `0`, sliding with direction `(0, 1)`. -/
def Board.right (b : Board) : Board :=
  (List.range b.tiles.length).foldl
    (fun bd (row : Nat) =>
      ((List.range bd.cols).reverse).foldl
        (fun bd2 (col : Nat) => bd2.slide ⟨(row : Int), (col : Int)⟩ ⟨0, 1⟩) bd)
    b

/-- Embeds `Board.left()`: rows in order, columns in increasing order,
sliding with direction `(0, -1)`. -/
def Board.left (b : Board) : Board :=
  (List.range b.tiles.length).foldl
    (fun bd (row : Nat) =>
      (List.range bd.cols).foldl
        (fun bd2 (col : Nat) => bd2.slide ⟨(row : Int), (col : Int)⟩ ⟨0, -1⟩) bd)
    b

/-- Embeds `Board.up()`: the outer loop `for col in range(len(self.tiles))`
(the row count, as in the source), rows in increasing order, direction
`(-1, 0)`. -/
def Board.up (b : Board) : Board :=
  (List.range b.tiles.length).foldl
    (fun bd (col : Nat) =>
      (List.range bd.rows).foldl
        (fun bd2 (row : Nat) => bd2.slide ⟨(row : Int), (col : Int)⟩ ⟨-1, 0⟩) bd)
    b

/-- Embeds `Board.down()`: the outer loop `for col in range(len(self.tiles))`,
rows in increasing order (the source iterates `range(self.rows)` upward,
exactly like `up`), direction `(1, 0)`. -/
def Board.down (b : Board) : Board :=
  (List.range b.tiles.length).foldl
    (fun bd (col : Nat) =>
      (List.range bd.rows).foldl
        (fun bd2 (row : Nat) => bd2.slide ⟨(row : Int), (col : Int)⟩ ⟨1, 0⟩) bd)
    b

/-- Embeds `Board.score()`: sum of `to_list()[row][col]` over
`range(self.rows)` and `range(self.cols)`; `none` embeds the
`IndexError` raised when the grid is smaller than `rows x cols`. -/
def Board.score (b : Board) : Option Int :=
  (List.range b.rows).foldlM
    (fun acc row =>
      (List.range b.cols).foldlM
        (fun acc2 col => do
          let rw ← b.to_list[row]?
          let x ← rw[col]?
          pure (acc2 + x))
        acc)
    0

/-! ## Derived notions used by the verification -/

/-- The value contributed by a cell: 0 for empty, the tile value else. -/
def cellVal : Option Tile → Int
  | none => 0
  | some t => t.value

/-- Sum of the tile values in one row. -/
def rowSum (r : List (Option Tile)) : Int :=
  (r.map cellVal).sum

/-- Sum of the tile values on the whole grid. -/
def gridSum (g : Grid) : Int :=
  (g.map rowSum).sum

/-- Count of occupied cells on the grid. -/
def occupiedCount (g : Grid) : Nat :=
  (g.map fun r => (r.filter fun c => c.isSome).length).sum

/-- The slot of the grid at Nat coordinates; `none` when no such slot
exists, `some c` when the slot exists and holds the cell `c`. -/
def slot (g : Grid) (i j : Nat) : Option (Option Tile) :=
  g[i]?.bind fun r => r[j]?

/-- Shape well-formedness of a board: the grid has exactly `rows` rows,
each of length `cols`.  `Board.__init__` establishes it and the grid
operations never change the shape. -/
def Board.WF (b : Board) : Prop :=
  b.tiles.length = b.rows ∧ ∀ r ∈ b.tiles, r.length = b.cols

instance (b : Board) : Decidable b.WF := by
  unfold Board.WF
  exact inferInstance

/-- The specified board invariant: every tile stores exactly the grid
position of the slot holding it.  In this embedding each slot holds at
most one tile by construction, so the stored-position property is the
contentful half of the spec invariant, and it also rules out one tile
sitting in two slots, since the stored position singles out one slot. -/
def Board.Inv (b : Board) : Prop :=
  ∀ i j t, slot b.tiles i j = some (some t) → t.row = (i : Int) ∧ t.col = (j : Int)

/-- The slot `place_tile` writes to, given the injected choice index. -/
def choicePos (b : Board) (i : Nat) : Vec :=
  b._empty_positions.getD (i % b._empty_positions.length) ⟨0, 0⟩

/-- A 4 x 4 board loaded from a value array, used for concrete cases. -/
def mkBoard (A : List (List Int)) : Board :=
  ((Board.init 4 4).from_list A).getD (Board.init 4 4)

/-- The four unit direction vectors used by the moves. -/
def UnitDir (dir : Vec) : Prop :=
  dir = ⟨0, 1⟩ ∨ dir = ⟨0, -1⟩ ∨ dir = ⟨1, 0⟩ ∨ dir = ⟨-1, 0⟩

instance (dir : Vec) : Decidable (UnitDir dir) := by
  unfold UnitDir
  exact inferInstance

/-- Number of cells between a position and the target edge of a unit
direction: an upper bound on the remaining iterations of the slide
loop. -/
def dirMeasure (b : Board) (pos dir : Vec) : Nat :=
  if dir = ⟨0, 1⟩ then ((b.cols : Int) - 1 - pos.col).toNat
  else if dir = ⟨0, -1⟩ then pos.col.toNat
  else if dir = ⟨1, 0⟩ then ((b.rows : Int) - 1 - pos.row).toNat
  else pos.row.toNat

/-- The conjunction of facts carried through the movement logic, stated
relative to a reference board: shape fields unchanged, well-formedness,
and total tile value unchanged. -/
def Pres (b0 b : Board) : Prop :=
  b.rows = b0.rows ∧ b.cols = b0.cols ∧ b.WF ∧ gridSum b.tiles = gridSum b0.tiles

/-- Grid-level version of `Board.Inv`. -/
def InvG (g : Grid) : Prop :=
  ∀ i j t, slot g i j = some (some t) → t.row = (i : Int) ∧ t.col = (j : Int)

/-- The row of fresh tiles `from_list` writes for one row of values,
starting at a given column. -/
def convRow (row : Nat) : Nat → List Int → List (Option Tile)
  | _, [] => []
  | col, v :: vs =>
    (if v = 0 then none else some ⟨(row : Int), (col : Int), v⟩) :: convRow row (col + 1) vs

/-- The grid of fresh tiles `from_list` writes, starting at a row. -/
def convGrid : Nat → List (List Int) → Grid
  | _, [] => []
  | row, vr :: rest => convRow row 0 vr :: convGrid (row + 1) rest

/-! ## Grid access lemmas -/

@[simp] theorem Vec.add_row (a b : Vec) : (a + b).row = a.row + b.row := rfl

@[simp] theorem Vec.add_col (a b : Vec) : (a + b).col = a.col + b.col := rfl


theorem set_of_getElem? {α : Type} (l : List α) (i : Nat) (a : α)
    (h : l[i]? = some a) : l.set i a = l := by
  induction l generalizing i with
  | nil => simp at h
  | cons x xs ih =>
    cases i with
    | zero => simp at h; simp [h]
    | succ n => simp at h; simp [List.set_cons_succ, ih n h]

/-- How a raw grid write (the shape of `Board.setT` and of the writes in
`from_list`) changes the slots. -/
theorem slot_set (g : Grid) (i j : Nat) (c : Option Tile) (i' j' : Nat) :
    slot (g.set i ((g.getD i []).set j c)) i' j' =
      if i' = i ∧ j' = j ∧ i < g.length ∧ j < (g.getD i []).length then some c
      else slot g i' j' := by
  unfold slot
  by_cases hii : i' = i
  · subst hii
    by_cases hlen : i' < g.length
    · have e1 : (g.set i' ((g.getD i' []).set j c))[i']? = some ((g.getD i' []).set j c) := by
        rw [List.getElem?_set]
        simp [hlen]
      have e2 : g[i']? = some (g.getD i' []) := by
        rw [List.getD_eq_getElem?_getD, List.getElem?_eq_getElem hlen]
        rfl
      have hgd : g.getD i' [] = g[i'] := by
        rw [List.getD_eq_getElem?_getD, List.getElem?_eq_getElem hlen]
        rfl
      rw [e1, e2, Option.some_bind, Option.some_bind, List.getElem?_set, hgd]
      by_cases hjj : j = j'
      · subst hjj
        by_cases hjlen : j < g[i'].length
        · simp [hjlen, hlen]
        · rw [List.getElem?_eq_none (Nat.le_of_not_lt hjlen)]
          simp [hjlen]
      · have hjj' : ¬(j' = j) := fun h => hjj h.symm
        simp [hjj, hjj']
    · rw [List.set_eq_of_length_le (Nat.le_of_not_lt hlen)]
      simp [hlen]
  · rw [List.getElem?_set_ne (fun h => hii h.symm)]
    simp [hii]

theorem setT_tiles (b : Board) (p : Vec) (c : Option Tile) :
    (b.setT p c).tiles
      = b.tiles.set p.row.toNat ((b.tiles.getD p.row.toNat []).set p.col.toNat c) := rfl

@[simp] theorem setT_rows (b : Board) (p : Vec) (c : Option Tile) :
    (b.setT p c).rows = b.rows := rfl

@[simp] theorem setT_cols (b : Board) (p : Vec) (c : Option Tile) :
    (b.setT p c).cols = b.cols := rfl

@[simp] theorem setT_length (b : Board) (p : Vec) (c : Option Tile) :
    (b.setT p c).tiles.length = b.tiles.length := by
  simp [setT_tiles]

theorem slot_setT (b : Board) (p : Vec) (c : Option Tile) (i' j' : Nat) :
    slot (b.setT p c).tiles i' j' =
      if i' = p.row.toNat ∧ j' = p.col.toNat ∧ p.row.toNat < b.tiles.length ∧
          p.col.toNat < (b.tiles.getD p.row.toNat []).length then some c
      else slot b.tiles i' j' := by
  rw [setT_tiles]
  exact slot_set b.tiles p.row.toNat p.col.toNat c i' j'

theorem getT_eq_slot (b : Board) (p : Vec) :
    b.getT p = (slot b.tiles p.row.toNat p.col.toNat).join := by
  unfold Board.getT slot
  cases h : b.tiles[p.row.toNat]? with
  | none => simp
  | some r =>
    cases h2 : r[p.col.toNat]? with
    | none => simp [h, h2]
    | some c => simp [h, h2]

/-- A present slot certifies that both indices are in range. -/
theorem slot_some_ranges (g : Grid) (i j : Nat) (c : Option Tile)
    (h : slot g i j = some c) :
    i < g.length ∧ j < (g.getD i []).length := by
  unfold slot at h
  cases hr : g[i]? with
  | none => rw [hr] at h; simp at h
  | some r =>
    rw [hr, Option.some_bind] at h
    have hi : i < g.length := by
      by_contra hge
      rw [List.getElem?_eq_none (Nat.le_of_not_lt hge)] at hr
      exact Option.noConfusion hr
    refine ⟨hi, ?_⟩
    have hd : g.getD i [] = r := by
      rw [List.getD_eq_getElem?_getD, hr]
      rfl
    rw [hd]
    by_contra hge
    rw [List.getElem?_eq_none (Nat.le_of_not_lt hge)] at h
    exact Option.noConfusion h

/-- A successful read certifies that both indices are in range. -/
theorem getT_some_ranges (b : Board) (p : Vec) (t : Tile)
    (h : b.getT p = some t) :
    p.row.toNat < b.tiles.length ∧
      p.col.toNat < (b.tiles.getD p.row.toNat []).length := by
  rw [getT_eq_slot] at h
  cases hs : slot b.tiles p.row.toNat p.col.toNat with
  | none =>
    rw [hs] at h
    exact Option.noConfusion h
  | some c =>
    exact slot_some_ranges _ _ _ _ hs

theorem getT_eq_getD (b : Board) (p : Vec) :
    b.getT p = (b.tiles.getD p.row.toNat []).getD p.col.toNat none := by
  rw [getT_eq_slot]
  unfold slot
  cases hr : b.tiles[p.row.toNat]? with
  | none => simp [Option.join, hr, List.getD_eq_getElem?_getD]
  | some r =>
    cases hc : r[p.col.toNat]? with
    | none => simp [Option.join, hr, hc, List.getD_eq_getElem?_getD]
    | some c => simp [Option.join, hr, hc, List.getD_eq_getElem?_getD]

theorem getT_setT_self (b : Board) (p : Vec) (c : Option Tile)
    (hr : p.row.toNat < b.tiles.length)
    (hc : p.col.toNat < (b.tiles.getD p.row.toNat []).length) :
    (b.setT p c).getT p = c := by
  rw [getT_eq_slot, slot_setT, if_pos ⟨rfl, rfl, hr, hc⟩]
  rfl

theorem getT_setT_ne (b : Board) (p q : Vec) (c : Option Tile)
    (h : ¬(q.row.toNat = p.row.toNat ∧ q.col.toNat = p.col.toNat)) :
    (b.setT p c).getT q = b.getT q := by
  rw [getT_eq_slot, getT_eq_slot, slot_setT]
  have : ¬(q.row.toNat = p.row.toNat ∧ q.col.toNat = p.col.toNat ∧
      p.row.toNat < b.tiles.length ∧
      p.col.toNat < (b.tiles.getD p.row.toNat []).length) := by
    intro ⟨h1, h2, _, _⟩
    exact h ⟨h1, h2⟩
  rw [if_neg this]

/-- `setT` never changes the length of any row. -/
theorem setT_row_length (b : Board) (p : Vec) (c : Option Tile) (i : Nat) :
    ((b.setT p c).tiles.getD i []).length = (b.tiles.getD i []).length := by
  rw [setT_tiles]
  by_cases hlen : p.row.toNat < b.tiles.length
  · rw [List.getD_eq_getElem?_getD, List.getD_eq_getElem?_getD, List.getElem?_set]
    by_cases hii : p.row.toNat = i
    · subst hii
      rw [if_pos rfl, if_pos hlen]
      simp [List.getD_eq_getElem?_getD, List.getElem?_eq_getElem hlen]
    · rw [if_neg hii, List.getD_eq_getElem?_getD]
  · rw [List.set_eq_of_length_le (Nat.le_of_not_lt hlen)]

theorem WF_setT (b : Board) (p : Vec) (c : Option Tile) (h : b.WF) :
    (b.setT p c).WF := by
  obtain ⟨hlen, hrows⟩ := h
  constructor
  · simpa using hlen
  · intro r hr
    rw [setT_tiles] at hr
    by_cases hp : p.row.toNat < b.tiles.length
    · rcases List.mem_or_eq_of_mem_set hr with hmem | heq
      · exact hrows r hmem
      · subst heq
        rw [List.length_set]
        have : b.tiles.getD p.row.toNat [] = b.tiles[p.row.toNat] := by
          rw [List.getD_eq_getElem?_getD, List.getElem?_eq_getElem hp]
          rfl
        rw [this]
        exact hrows _ (List.getElem_mem hp)
    · rw [List.set_eq_of_length_le (Nat.le_of_not_lt hp)] at hr
      exact hrows _ hr

/-- In-bounds positions of a well-formed board have in-range indices. -/
theorem in_bounds_ranges (b : Board) (p : Vec) (hwf : b.WF)
    (h : b.in_bounds p) :
    p.row.toNat < b.tiles.length ∧
      p.col.toNat < (b.tiles.getD p.row.toNat []).length := by
  obtain ⟨⟨hr0, hrlt⟩, ⟨hc0, hclt⟩⟩ := h
  obtain ⟨hlen, hrows⟩ := hwf
  have hr : p.row.toNat < b.tiles.length := by omega
  refine ⟨hr, ?_⟩
  have : b.tiles.getD p.row.toNat [] = b.tiles[p.row.toNat] := by
    rw [List.getD_eq_getElem?_getD, List.getElem?_eq_getElem hr]
    rfl
  rw [this, hrows _ (List.getElem_mem hr)]
  omega

/-- Distinct in-bounds positions index distinct slots. -/
theorem in_bounds_index_ne (b : Board) (p q : Vec)
    (hp : b.in_bounds p) (hq : b.in_bounds q) (hne : p ≠ q) :
    ¬(p.row.toNat = q.row.toNat ∧ p.col.toNat = q.col.toNat) := by
  obtain ⟨⟨hr0, _⟩, ⟨hc0, _⟩⟩ := hp
  obtain ⟨⟨hr0', _⟩, ⟨hc0', _⟩⟩ := hq
  intro ⟨h1, h2⟩
  apply hne
  have e1 : p.row = q.row := by omega
  have e2 : p.col = q.col := by omega
  cases p; cases q
  simp_all

/-! ## Sum preservation -/

theorem gridSum_setT (b : Board) (p : Vec) (c : Option Tile)
    (hr : p.row.toNat < b.tiles.length)
    (hc : p.col.toNat < (b.tiles.getD p.row.toNat []).length) :
    gridSum (b.setT p c).tiles = gridSum b.tiles - cellVal (b.getT p) + cellVal c := by
  have hgd : b.tiles.getD p.row.toNat [] = b.tiles[p.row.toNat] := by
    rw [List.getD_eq_getElem?_getD, List.getElem?_eq_getElem hr]
    rfl
  rw [setT_tiles]
  unfold gridSum
  rw [List.map_set, List.sum_set']
  have hrmap : p.row.toNat < (b.tiles.map rowSum).length := by
    simpa using hr
  rw [dif_pos hrmap]
  have hmap_at : (b.tiles.map rowSum)[p.row.toNat] = rowSum b.tiles[p.row.toNat] := by
    simp
  rw [hmap_at]
  have hrow : rowSum ((b.tiles.getD p.row.toNat []).set p.col.toNat c)
      = rowSum (b.tiles.getD p.row.toNat []) - cellVal (b.getT p) + cellVal c := by
    unfold rowSum
    rw [List.map_set, List.sum_set']
    have hcmap : p.col.toNat < ((b.tiles.getD p.row.toNat []).map cellVal).length := by
      simpa using hc
    rw [dif_pos hcmap]
    have : ((b.tiles.getD p.row.toNat []).map cellVal)[p.col.toNat]
        = cellVal (b.tiles.getD p.row.toNat [])[p.col.toNat] := by
      simp
    rw [this]
    have hget : b.getT p = (b.tiles.getD p.row.toNat [])[p.col.toNat] := by
      rw [getT_eq_getD, List.getD_eq_getElem?_getD]
      rw [List.getElem?_eq_getElem (by simpa using hc)]
      rfl
    rw [hget]
    ring
  rw [hrow, hgd]
  ring

theorem gridSum_setT_of_in_bounds (b : Board) (p : Vec) (c : Option Tile)
    (hwf : b.WF) (hp : b.in_bounds p) :
    gridSum (b.setT p c).tiles = gridSum b.tiles - cellVal (b.getT p) + cellVal c :=
  gridSum_setT b p c (in_bounds_ranges b p hwf hp).1 (in_bounds_ranges b p hwf hp).2

theorem vec_ne_add_of_ne_zero (pos dir : Vec) (h : dir ≠ ⟨0, 0⟩) : pos ≠ pos + dir := by
  intro he
  apply h
  have hr : pos.row = pos.row + dir.row := by rw [← Vec.add_row, ← he]
  have hc : pos.col = pos.col + dir.col := by rw [← Vec.add_col, ← he]
  have h1 : dir.row = 0 := by omega
  have h2 : dir.col = 0 := by omega
  cases dir with
  | mk dr dc =>
    rw [Vec.mk.injEq]
    exact ⟨h1, h2⟩

theorem in_bounds_congr (b b' : Board) (hr : b'.rows = b.rows) (hc : b'.cols = b.cols)
    (p : Vec) : b'.in_bounds p ↔ b.in_bounds p := by
  unfold Board.in_bounds
  rw [hr, hc]

@[simp] theorem move_tile_rows (b : Board) (old new : Vec) :
    (b.move_tile old new).rows = b.rows := by
  unfold Board.move_tile
  cases b.getT old <;> rfl

@[simp] theorem move_tile_cols (b : Board) (old new : Vec) :
    (b.move_tile old new).cols = b.cols := by
  unfold Board.move_tile
  cases b.getT old <;> rfl

theorem WF_move_tile (b : Board) (old new : Vec) (h : b.WF) :
    (b.move_tile old new).WF := by
  unfold Board.move_tile
  cases b.getT old with
  | none => exact h
  | some t => exact WF_setT _ _ _ (WF_setT _ _ _ h)

theorem gridSum_move_tile_empty (b : Board) (old new : Vec)
    (hwf : b.WF) (hold : b.in_bounds old) (hnew : b.in_bounds new)
    (hne : old ≠ new) (hempty : b.getT new = none) :
    gridSum (b.move_tile old new).tiles = gridSum b.tiles := by
  unfold Board.move_tile
  cases h : b.getT old with
  | none => rfl
  | some t =>
    have hidx := in_bounds_index_ne b old new hold hnew hne
    have h1 := gridSum_setT_of_in_bounds b new
      (some { t with row := new.row, col := new.col }) hwf hnew
    have hwf1 : (b.setT new (some { t with row := new.row, col := new.col })).WF :=
      WF_setT _ _ _ hwf
    have hold1 : (b.setT new (some { t with row := new.row, col := new.col })).in_bounds old :=
      (in_bounds_congr b _ rfl rfl old).mpr hold
    have h2 := gridSum_setT_of_in_bounds
      (b.setT new (some { t with row := new.row, col := new.col })) old none hwf1 hold1
    have hgold : (b.setT new (some { t with row := new.row, col := new.col })).getT old
        = b.getT old := by
      apply getT_setT_ne
      intro hx
      exact hidx ⟨hx.1, hx.2⟩
    rw [h2, hgold, h, h1, hempty]
    simp [cellVal]

/-- Definitional unfolding of one iteration of the slide loop. -/
theorem slideLoop_succ (f : Nat) (b : Board) (pos dir : Vec) :
    Board.slideLoop (f + 1) b pos dir =
      if b.in_bounds (pos + dir) then
        match b.getT (pos + dir) with
        | none => Board.slideLoop f (b.move_tile pos (pos + dir)) (pos + dir) dir
        | some t2 =>
          match b.getT pos with
          | some t1 =>
            if t1.value = t2.value then
              (b.setT (pos + dir)
                (some ⟨(pos + dir).row, (pos + dir).col, t1.value + t2.value⟩)).setT pos none
            else b
          | none => b
      else b := rfl

theorem Pres_trans (a b c : Board) (h1 : Pres a b) (h2 : Pres b c) : Pres a c := by
  obtain ⟨e1, e2, e3, e4⟩ := h1
  obtain ⟨f1, f2, f3, f4⟩ := h2
  exact ⟨f1.trans e1, f2.trans e2, f3, f4.trans e4⟩

/-- Bundled preservation through the slide loop: the board shape fields,
well-formedness and the total tile value are all unchanged. -/
theorem slideLoop_preserve (f : Nat) : ∀ (b : Board) (pos dir : Vec),
    b.WF → dir ≠ ⟨0, 0⟩ → b.in_bounds pos →
    Pres b (Board.slideLoop f b pos dir) := by
  induction f with
  | zero =>
    intro b pos dir hwf hdir hpos
    exact ⟨rfl, rfl, hwf, rfl⟩
  | succ f ih =>
    intro b pos dir hwf hdir hpos
    rw [slideLoop_succ]
    by_cases hib : b.in_bounds (pos + dir)
    · rw [if_pos hib]
      cases hnp : b.getT (pos + dir) with
      | none =>
        show Pres b (Board.slideLoop f (b.move_tile pos (pos + dir)) (pos + dir) dir)
        have hne : pos ≠ pos + dir := vec_ne_add_of_ne_zero pos dir hdir
        have hwf' : (b.move_tile pos (pos + dir)).WF := WF_move_tile _ _ _ hwf
        have hpos' : (b.move_tile pos (pos + dir)).in_bounds (pos + dir) :=
          (in_bounds_congr b _ (move_tile_rows _ _ _) (move_tile_cols _ _ _) _).mpr hib
        refine Pres_trans b (b.move_tile pos (pos + dir)) _ ?_ (ih _ (pos + dir) dir hwf' hdir hpos')
        exact ⟨move_tile_rows _ _ _, move_tile_cols _ _ _, hwf',
          gridSum_move_tile_empty b pos (pos + dir) hwf hpos hib hne hnp⟩
      | some t2 =>
        cases hp : b.getT pos with
        | none =>
          show Pres b b
          exact ⟨rfl, rfl, hwf, rfl⟩
        | some t1 =>
          show Pres b (if t1.value = t2.value then
            (b.setT (pos + dir)
              (some ⟨(pos + dir).row, (pos + dir).col, t1.value + t2.value⟩)).setT pos none
            else b)
          by_cases heq : t1.value = t2.value
          · rw [if_pos heq]
            have hidx := in_bounds_index_ne b pos (pos + dir) hpos hib
              (vec_ne_add_of_ne_zero pos dir hdir)
            have hwf1 : (b.setT (pos + dir)
                (some ⟨(pos + dir).row, (pos + dir).col, t1.value + t2.value⟩)).WF :=
              WF_setT _ _ _ hwf
            have hpos1 : (b.setT (pos + dir)
                (some ⟨(pos + dir).row, (pos + dir).col, t1.value + t2.value⟩)).in_bounds pos :=
              (in_bounds_congr b _ rfl rfl pos).mpr hpos
            refine ⟨rfl, rfl, WF_setT _ _ _ hwf1, ?_⟩
            have h1 := gridSum_setT_of_in_bounds b (pos + dir)
              (some ⟨(pos + dir).row, (pos + dir).col, t1.value + t2.value⟩) hwf hib
            have h2 := gridSum_setT_of_in_bounds _ pos none hwf1 hpos1
            have hgpos : (b.setT (pos + dir)
                (some ⟨(pos + dir).row, (pos + dir).col, t1.value + t2.value⟩)).getT pos
                = b.getT pos := by
              apply getT_setT_ne
              intro hx
              exact hidx ⟨hx.1, hx.2⟩
            rw [h2, hgpos, hp, h1, hnp]
            simp [cellVal]
          · rw [if_neg heq]
            exact ⟨rfl, rfl, hwf, rfl⟩
    · rw [if_neg hib]
      exact ⟨rfl, rfl, hwf, rfl⟩

/-- Bundled preservation through `Board.slide` at a position with
non-negative coordinates (all call sites of `slide` in the moves). -/
theorem slide_preserve (b : Board) (pos dir : Vec)
    (hwf : b.WF) (hdir : dir ≠ ⟨0, 0⟩) (h0r : 0 ≤ pos.row) (h0c : 0 ≤ pos.col) :
    Pres b (b.slide pos dir) := by
  unfold Board.slide
  cases h : b.getT pos with
  | none =>
    show Pres b b
    exact ⟨rfl, rfl, hwf, rfl⟩
  | some t =>
    show Pres b (Board.slideLoop (b.rows + b.cols) b pos dir)
    obtain ⟨hr, hc⟩ := getT_some_ranges b pos t h
    obtain ⟨hlen, hrows⟩ := hwf
    have hpos : b.in_bounds pos := by
      have h1 : pos.row.toNat < b.rows := hlen ▸ hr
      have h2 : (b.tiles.getD pos.row.toNat []).length = b.cols := by
        have hgd : b.tiles.getD pos.row.toNat [] = b.tiles[pos.row.toNat] := by
          rw [List.getD_eq_getElem?_getD, List.getElem?_eq_getElem hr]
          rfl
        rw [hgd]
        exact hrows _ (List.getElem_mem hr)
      have h3 : pos.col.toNat < b.cols := h2 ▸ hc
      exact ⟨⟨h0r, by omega⟩, ⟨h0c, by omega⟩⟩
    exact slideLoop_preserve _ b pos dir ⟨hlen, hrows⟩ hdir hpos

theorem Pres_slide (b0 bd : Board) (pos dir : Vec) (h : Pres b0 bd)
    (hdir : dir ≠ ⟨0, 0⟩) (h0r : 0 ≤ pos.row) (h0c : 0 ≤ pos.col) :
    Pres b0 (bd.slide pos dir) :=
  Pres_trans b0 bd _ h (slide_preserve bd pos dir h.2.2.1 hdir h0r h0c)

theorem foldl_preserve {P : Board → Prop} (l : List Nat) (step : Board → Nat → Board)
    (h : ∀ bd c, P bd → c ∈ l → P (step bd c)) :
    ∀ bd, P bd → P (l.foldl step bd) := by
  induction l with
  | nil =>
    intro bd hb
    exact hb
  | cons c cs ih =>
    intro bd hb
    exact ih (fun bd' c' hb' hc' => h bd' c' hb' (List.mem_cons_of_mem _ hc')) _
      (h bd c hb (List.mem_cons_self _ _))

theorem Pres_right (b : Board) (hwf : b.WF) : Pres b b.right := by
  unfold Board.right
  apply foldl_preserve _ _ ?_ b ⟨rfl, rfl, hwf, rfl⟩
  intro bd row hb _
  apply foldl_preserve _ _ ?_ bd hb
  intro bd2 col hb2 _
  exact Pres_slide b bd2 _ _ hb2 (by simp [Vec.mk.injEq]) (Int.natCast_nonneg _) (Int.natCast_nonneg _)

theorem Pres_left (b : Board) (hwf : b.WF) : Pres b b.left := by
  unfold Board.left
  apply foldl_preserve _ _ ?_ b ⟨rfl, rfl, hwf, rfl⟩
  intro bd row hb _
  apply foldl_preserve _ _ ?_ bd hb
  intro bd2 col hb2 _
  exact Pres_slide b bd2 _ _ hb2 (by simp [Vec.mk.injEq]) (Int.natCast_nonneg _) (Int.natCast_nonneg _)

theorem Pres_up (b : Board) (hwf : b.WF) : Pres b b.up := by
  unfold Board.up
  apply foldl_preserve _ _ ?_ b ⟨rfl, rfl, hwf, rfl⟩
  intro bd col hb _
  apply foldl_preserve _ _ ?_ bd hb
  intro bd2 row hb2 _
  exact Pres_slide b bd2 _ _ hb2 (by simp [Vec.mk.injEq]) (Int.natCast_nonneg _) (Int.natCast_nonneg _)

theorem Pres_down (b : Board) (hwf : b.WF) : Pres b b.down := by
  unfold Board.down
  apply foldl_preserve _ _ ?_ b ⟨rfl, rfl, hwf, rfl⟩
  intro bd col hb _
  apply foldl_preserve _ _ ?_ bd hb
  intro bd2 row hb2 _
  exact Pres_slide b bd2 _ _ hb2 (by simp [Vec.mk.injEq]) (Int.natCast_nonneg _) (Int.natCast_nonneg _)

/-! ## Invariant preservation: stored tile positions match their slots -/

theorem Inv_iff_InvG (b : Board) : b.Inv ↔ InvG b.tiles := Iff.rfl

theorem Inv_setT (b : Board) (p : Vec) (c : Option Tile) (hInv : b.Inv)
    (hc : ∀ t, c = some t → t.row = p.row ∧ t.col = p.col ∧ 0 ≤ p.row ∧ 0 ≤ p.col) :
    (b.setT p c).Inv := by
  intro i j t hslot
  rw [slot_setT] at hslot
  by_cases hcond : i = p.row.toNat ∧ j = p.col.toNat ∧ p.row.toNat < b.tiles.length ∧
      p.col.toNat < (b.tiles.getD p.row.toNat []).length
  · rw [if_pos hcond] at hslot
    have hct : c = some t := by injection hslot
    obtain ⟨h1, h2, h3, h4⟩ := hc t hct
    obtain ⟨hi, hj, _, _⟩ := hcond
    subst hi
    subst hj
    constructor
    · rw [h1]; omega
    · rw [h2]; omega
  · rw [if_neg hcond] at hslot
    exact hInv i j t hslot

theorem Inv_setT_none (b : Board) (p : Vec) (hInv : b.Inv) : (b.setT p none).Inv :=
  Inv_setT b p none hInv (fun _ ht => Option.noConfusion ht)

theorem Inv_move_tile (b : Board) (old new : Vec) (hInv : b.Inv)
    (h0r : 0 ≤ new.row) (h0c : 0 ≤ new.col) :
    (b.move_tile old new).Inv := by
  unfold Board.move_tile
  cases b.getT old with
  | none => exact hInv
  | some t =>
    apply Inv_setT_none
    apply Inv_setT b new _ hInv
    intro t' ht'
    have e := Option.some.inj ht'
    subst e
    exact ⟨rfl, rfl, h0r, h0c⟩

theorem Inv_slideLoop (f : Nat) : ∀ (b : Board) (pos dir : Vec),
    b.Inv → (Board.slideLoop f b pos dir).Inv := by
  induction f with
  | zero =>
    intro b pos dir hInv
    exact hInv
  | succ f ih =>
    intro b pos dir hInv
    rw [slideLoop_succ]
    by_cases hib : b.in_bounds (pos + dir)
    · rw [if_pos hib]
      obtain ⟨⟨hr0, _⟩, ⟨hc0, _⟩⟩ := hib
      cases hnp : b.getT (pos + dir) with
      | none =>
        show (Board.slideLoop f (b.move_tile pos (pos + dir)) (pos + dir) dir).Inv
        exact ih _ _ _ (Inv_move_tile b pos (pos + dir) hInv hr0 hc0)
      | some t2 =>
        cases hp : b.getT pos with
        | none => exact hInv
        | some t1 =>
          show (if t1.value = t2.value then
              (b.setT (pos + dir)
                (some ⟨(pos + dir).row, (pos + dir).col, t1.value + t2.value⟩)).setT pos none
            else b).Inv
          by_cases heq : t1.value = t2.value
          · rw [if_pos heq]
            apply Inv_setT_none
            apply Inv_setT b (pos + dir) _ hInv
            intro t' ht'
            have e := Option.some.inj ht'
            subst e
            exact ⟨rfl, rfl, hr0, hc0⟩
          · rw [if_neg heq]
            exact hInv
    · rw [if_neg hib]
      exact hInv

theorem Inv_slide (b : Board) (pos dir : Vec) (hInv : b.Inv) :
    (b.slide pos dir).Inv := by
  unfold Board.slide
  cases b.getT pos with
  | none => exact hInv
  | some t => exact Inv_slideLoop _ b pos dir hInv

theorem empties_nonneg (b : Board) (v : Vec) (h : v ∈ b._empty_positions) :
    0 ≤ v.row ∧ 0 ≤ v.col := by
  unfold Board._empty_positions at h
  rw [List.mem_flatMap] at h
  obtain ⟨row, _, hv⟩ := h
  rw [List.mem_map] at hv
  obtain ⟨col, _, hv⟩ := hv
  subst hv
  exact ⟨Int.natCast_nonneg _, Int.natCast_nonneg _⟩

theorem choicePos_nonneg (b : Board) (i : Nat) :
    0 ≤ (choicePos b i).row ∧ 0 ≤ (choicePos b i).col := by
  unfold choicePos
  by_cases h : i % b._empty_positions.length < b._empty_positions.length
  · have hmem : b._empty_positions.getD (i % b._empty_positions.length) ⟨0, 0⟩
        ∈ b._empty_positions := by
      rw [List.getD_eq_getElem?_getD, List.getElem?_eq_getElem h]
      exact List.getElem_mem h
    exact empties_nonneg b _ hmem
  · rw [List.getD_eq_getElem?_getD, List.getElem?_eq_none (Nat.le_of_not_lt h)]
    exact ⟨le_refl 0, le_refl 0⟩

theorem place_tile_eq (b : Board) (i : Nat) (r : ℚ) (value : Option Int) (b' : Board)
    (h : b.place_tile i r value = some b') :
    b._empty_positions.length ≠ 0 ∧
      b' = b.setT (choicePos b i)
        (some ⟨(choicePos b i).row, (choicePos b i).col, placedValue value r⟩) := by
  have h' : (if b._empty_positions.length = 0 then (none : Option Board)
      else some (b.setT (choicePos b i)
        (some ⟨(choicePos b i).row, (choicePos b i).col, placedValue value r⟩))) = some b' := h
  by_cases he : b._empty_positions.length = 0
  · rw [if_pos he] at h'
    exact Option.noConfusion h'
  · rw [if_neg he] at h'
    exact ⟨he, (Option.some.inj h').symm⟩

theorem Inv_place_tile (b : Board) (i : Nat) (r : ℚ) (value : Option Int) (b' : Board)
    (hInv : b.Inv) (h : b.place_tile i r value = some b') : b'.Inv := by
  obtain ⟨_, heq⟩ := place_tile_eq b i r value b' h
  subst heq
  apply Inv_setT b _ _ hInv
  intro t' ht'
  obtain ⟨h0r, h0c⟩ := choicePos_nonneg b i
  have e := Option.some.inj ht'
  subst e
  exact ⟨rfl, rfl, h0r, h0c⟩

theorem InvG_writeCell (g : Grid) (row col : Nat) (v : Int) (g' : Grid)
    (h : writeCell g row col v = some g') (hg : InvG g) : InvG g' := by
  unfold writeCell at h
  cases hr : g[row]? with
  | none =>
    rw [hr] at h
    exact Option.noConfusion h
  | some r =>
    rw [hr] at h
    have h2 : (if col < r.length then
        some (g.set row (r.set col
          (if v = 0 then none else some ⟨(row : Int), (col : Int), v⟩)))
      else none) = some g' := h
    by_cases hcl : col < r.length
    · rw [if_pos hcl] at h2
      have hgd : g.getD row [] = r := by
        rw [List.getD_eq_getElem?_getD, hr]
        rfl
      have hg' : g' = g.set row ((g.getD row []).set col
          (if v = 0 then none else some ⟨(row : Int), (col : Int), v⟩)) := by
        rw [hgd]
        exact (Option.some.inj h2).symm
      subst hg'
      intro i j t hslot
      rw [slot_set] at hslot
      by_cases hcond : i = row ∧ j = col ∧ row < g.length ∧ col < (g.getD row []).length
      · rw [if_pos hcond] at hslot
        obtain ⟨hi, hj, _, _⟩ := hcond
        subst hi
        subst hj
        by_cases hv : v = 0
        · rw [if_pos hv] at hslot
          exact Option.noConfusion (Option.some.inj hslot)
        · rw [if_neg hv] at hslot
          have : some ⟨(i : Int), (j : Int), v⟩ = some t := Option.some.inj hslot
          have ht : t = ⟨(i : Int), (j : Int), v⟩ := (Option.some.inj this).symm
          subst ht
          exact ⟨rfl, rfl⟩
      · rw [if_neg hcond] at hslot
        exact hg i j t hslot
    · rw [if_neg hcl] at h2
      exact Option.noConfusion h2

theorem InvG_writeCells (vrow : List Int) (row : Nat) (k : Nat) :
    ∀ (g : Grid) (col : Nat) (g' : Grid),
    writeCells vrow row g col k = some g' → InvG g → InvG g' := by
  induction k with
  | zero =>
    intro g col g' h hg
    have : g = g' := Option.some.inj h
    subst this
    exact hg
  | succ k ih =>
    intro g col g' h hg
    unfold writeCells at h
    cases hv : vrow[col]? with
    | none =>
      rw [hv] at h
      exact Option.noConfusion h
    | some v =>
      rw [hv] at h
      have h2 : (writeCell g row col v).bind
          (fun g1 => writeCells vrow row g1 (col + 1) k) = some g' := h
      cases hw : writeCell g row col v with
      | none =>
        rw [hw] at h2
        exact Option.noConfusion h2
      | some g1 =>
        rw [hw, Option.some_bind] at h2
        exact ih g1 (col + 1) g' h2 (InvG_writeCell g row col v g1 hw hg)

theorem InvG_fromRows (nc : Nat) : ∀ (values : List (List Int)) (g : Grid) (row : Nat)
    (g' : Grid), fromRows nc g row values = some g' → InvG g → InvG g' := by
  intro values
  induction values with
  | nil =>
    intro g row g' h hg
    have : g = g' := Option.some.inj h
    subst this
    exact hg
  | cons vrow rest ih =>
    intro g row g' h hg
    have h2 : (writeCells vrow row g 0 nc).bind
        (fun g1 => fromRows nc g1 (row + 1) rest) = some g' := h
    cases hw : writeCells vrow row g 0 nc with
    | none =>
      rw [hw] at h2
      exact Option.noConfusion h2
    | some g1 =>
      rw [hw, Option.some_bind] at h2
      exact ih g1 (row + 1) g' h2 (InvG_writeCells vrow row nc g 0 g1 hw hg)

theorem Inv_from_list (b : Board) (values : List (List Int)) (b' : Board)
    (h : b.from_list values = some b') (hInv : b.Inv) : b'.Inv := by
  unfold Board.from_list at h
  cases hfr : fromRows (values.headD []).length b.tiles 0 values with
  | none =>
    rw [hfr] at h
    exact Option.noConfusion h
  | some g' =>
    rw [hfr] at h
    have hb' : b' = { b with tiles := g' } := (Option.some.inj h).symm
    subst hb'
    exact InvG_fromRows _ values b.tiles 0 g' hfr hInv

theorem Inv_right (b : Board) (h : b.Inv) : b.right.Inv := by
  unfold Board.right
  apply foldl_preserve _ _ ?_ b h
  intro bd row hb _
  apply foldl_preserve _ _ ?_ bd hb
  intro bd2 col hb2 _
  exact Inv_slide bd2 _ _ hb2

theorem Inv_left (b : Board) (h : b.Inv) : b.left.Inv := by
  unfold Board.left
  apply foldl_preserve _ _ ?_ b h
  intro bd row hb _
  apply foldl_preserve _ _ ?_ bd hb
  intro bd2 col hb2 _
  exact Inv_slide bd2 _ _ hb2

theorem Inv_up (b : Board) (h : b.Inv) : b.up.Inv := by
  unfold Board.up
  apply foldl_preserve _ _ ?_ b h
  intro bd col hb _
  apply foldl_preserve _ _ ?_ bd hb
  intro bd2 row hb2 _
  exact Inv_slide bd2 _ _ hb2

theorem Inv_down (b : Board) (h : b.Inv) : b.down.Inv := by
  unfold Board.down
  apply foldl_preserve _ _ ?_ b h
  intro bd col hb _
  apply foldl_preserve _ _ ?_ bd hb
  intro bd2 row hb2 _
  exact Inv_slide bd2 _ _ hb2

/-! ## Fuel adequacy for the slide loop -/

theorem UnitDir_ne_zero (dir : Vec) (h : UnitDir dir) : dir ≠ ⟨0, 0⟩ := by
  rcases h with h | h | h | h <;> subst h <;> decide

theorem dirMeasure_congr (b b0 : Board) (hr : b0.rows = b.rows) (hc : b0.cols = b.cols)
    (pos dir : Vec) : dirMeasure b0 pos dir = dirMeasure b pos dir := by
  unfold dirMeasure
  rw [hr, hc]

theorem dirMeasure_step (b : Board) (pos dir : Vec) (hdir : UnitDir dir)
    (hib : b.in_bounds (pos + dir)) :
    dirMeasure b (pos + dir) dir < dirMeasure b pos dir := by
  rcases hdir with h | h | h | h <;> subst h <;>
    obtain ⟨⟨h1, h2⟩, ⟨h3, h4⟩⟩ := hib <;>
    simp [dirMeasure, Vec.add_row, Vec.add_col] at h1 h2 h3 h4 ⊢ <;> try omega

theorem dirMeasure_bound (b : Board) (pos dir : Vec) (hdir : UnitDir dir)
    (hpos : b.in_bounds pos) :
    dirMeasure b pos dir + 2 ≤ b.rows + b.cols := by
  obtain ⟨⟨h1, h2⟩, ⟨h3, h4⟩⟩ := hpos
  rcases hdir with h | h | h | h <;> subst h <;>
    simp [dirMeasure] <;> omega

/-- Above the remaining distance to the target edge, the exact fuel of
the loop does not matter: the embedded loop computes the fixpoint of the
source `while True` loop. -/
theorem slideLoop_fuel_irrelevant (f1 : Nat) : ∀ (f2 : Nat) (b : Board) (pos dir : Vec),
    UnitDir dir → dirMeasure b pos dir < f1 → dirMeasure b pos dir < f2 →
    Board.slideLoop f1 b pos dir = Board.slideLoop f2 b pos dir := by
  induction f1 with
  | zero =>
    intro f2 b pos dir _ h1 _
    exact absurd h1 (by omega)
  | succ f1 ih =>
    intro f2 b pos dir hdir h1 h2
    cases f2 with
    | zero => exact absurd h2 (by omega)
    | succ f2 =>
      rw [slideLoop_succ, slideLoop_succ]
      by_cases hib : b.in_bounds (pos + dir)
      · rw [if_pos hib, if_pos hib]
        cases hnp : b.getT (pos + dir) with
        | none =>
          show Board.slideLoop f1 (b.move_tile pos (pos + dir)) (pos + dir) dir
            = Board.slideLoop f2 (b.move_tile pos (pos + dir)) (pos + dir) dir
          have hm := dirMeasure_step b pos dir hdir hib
          have hc1 : dirMeasure (b.move_tile pos (pos + dir)) (pos + dir) dir
              = dirMeasure b (pos + dir) dir :=
            dirMeasure_congr b _ (move_tile_rows _ _ _) (move_tile_cols _ _ _) _ _
          apply ih f2 _ _ _ hdir
          · rw [hc1]; omega
          · rw [hc1]; omega
        | some t2 => rfl
      · rw [if_neg hib, if_neg hib]

theorem getT_move_tile_new (b : Board) (old new : Vec) (t : Tile)
    (hwf : b.WF) (ht : b.getT old = some t) (hnew : b.in_bounds new)
    (hne : ¬(old.row.toNat = new.row.toNat ∧ old.col.toNat = new.col.toNat)) :
    (b.move_tile old new).getT new = some { t with row := new.row, col := new.col } := by
  unfold Board.move_tile
  rw [ht]
  show ((b.setT new (some { t with row := new.row, col := new.col })).setT old none).getT new
    = some { t with row := new.row, col := new.col }
  have hnb : ¬(new.row.toNat = old.row.toNat ∧ new.col.toNat = old.col.toNat) := by
    intro hx
    exact hne ⟨hx.1.symm, hx.2.symm⟩
  rw [getT_setT_ne _ old new none hnb]
  obtain ⟨hr, hc⟩ := in_bounds_ranges b new hwf hnew
  exact getT_setT_self b new _ hr hc

/-! ## Claim theorems -/

/-- C1: for every well-formed board, every in-bounds position holding a
tile and every unit direction, one step of `slide` behaves as specified:
it stops with the tile in place when `pos + dir` is out of bounds; when
the next cell is empty it moves the tile there and continues the same
slide from the next cell; when the next cell holds an equal-valued tile
it merges the two into a tile of the summed value placed in that slot
and stops (the result is a plain double write, with no further sliding,
so a tile merges at most once per slide call); and when the next cell
holds an unequal-valued tile it stops without moving. -/
theorem C1_slide_step (b : Board) (pos dir : Vec) (t : Tile)
    (hwf : b.WF) (hdir : UnitDir dir) (hpos : b.in_bounds pos)
    (ht : b.getT pos = some t) :
    (¬ b.in_bounds (pos + dir) → b.slide pos dir = b) ∧
    (b.in_bounds (pos + dir) → b.getT (pos + dir) = none →
      b.slide pos dir = (b.move_tile pos (pos + dir)).slide (pos + dir) dir) ∧
    (∀ t2 : Tile, b.in_bounds (pos + dir) → b.getT (pos + dir) = some t2 →
      t.value = t2.value →
      b.slide pos dir =
        (b.setT (pos + dir)
          (some ⟨(pos + dir).row, (pos + dir).col, t.value + t2.value⟩)).setT pos none) ∧
    (∀ t2 : Tile, b.in_bounds (pos + dir) → b.getT (pos + dir) = some t2 →
      t.value ≠ t2.value → b.slide pos dir = b) := by
  have hslide : b.slide pos dir = Board.slideLoop (b.rows + b.cols) b pos dir := by
    unfold Board.slide
    rw [ht]
  obtain ⟨n, hn⟩ : ∃ n, b.rows + b.cols = n + 1 := by
    obtain ⟨⟨p1, p2⟩, _⟩ := hpos
    exact ⟨b.rows + b.cols - 1, by omega⟩
  refine ⟨?_, ?_, ?_, ?_⟩
  · intro hoob
    rw [hslide, hn, slideLoop_succ, if_neg hoob]
  · intro hib hempty
    have hne0 : dir ≠ ⟨0, 0⟩ := UnitDir_ne_zero dir hdir
    have hnepos : pos ≠ pos + dir := vec_ne_add_of_ne_zero pos dir hne0
    have hidx := in_bounds_index_ne b pos (pos + dir) hpos hib hnepos
    have hmoved := getT_move_tile_new b pos (pos + dir) t hwf ht hib hidx
    have hrhs : (b.move_tile pos (pos + dir)).slide (pos + dir) dir
        = Board.slideLoop
            ((b.move_tile pos (pos + dir)).rows + (b.move_tile pos (pos + dir)).cols)
            (b.move_tile pos (pos + dir)) (pos + dir) dir := by
      unfold Board.slide
      rw [hmoved]
    rw [hslide, hn, slideLoop_succ, if_pos hib, hempty, hrhs, move_tile_rows, move_tile_cols]
    show Board.slideLoop n (b.move_tile pos (pos + dir)) (pos + dir) dir
      = Board.slideLoop (b.rows + b.cols) (b.move_tile pos (pos + dir)) (pos + dir) dir
    have hm1 : dirMeasure (b.move_tile pos (pos + dir)) (pos + dir) dir
        = dirMeasure b (pos + dir) dir :=
      dirMeasure_congr b _ (move_tile_rows _ _ _) (move_tile_cols _ _ _) _ _
    have hm2 := dirMeasure_step b pos dir hdir hib
    have hm3 := dirMeasure_bound b pos dir hdir hpos
    apply slideLoop_fuel_irrelevant n (b.rows + b.cols) _ _ _ hdir
    · rw [hm1]; omega
    · rw [hm1]; omega
  · intro t2 hib hsnp heqv
    rw [hslide, hn, slideLoop_succ, if_pos hib, hsnp, ht]
    show (if t.value = t2.value then
        (b.setT (pos + dir)
          (some ⟨(pos + dir).row, (pos + dir).col, t.value + t2.value⟩)).setT pos none
      else b)
      = (b.setT (pos + dir)
          (some ⟨(pos + dir).row, (pos + dir).col, t.value + t2.value⟩)).setT pos none
    rw [if_pos heqv]
  · intro t2 hib hsnp hneq
    rw [hslide, hn, slideLoop_succ, if_pos hib, hsnp, ht]
    show (if t.value = t2.value then
        (b.setT (pos + dir)
          (some ⟨(pos + dir).row, (pos + dir).col, t.value + t2.value⟩)).setT pos none
      else b) = b
    rw [if_neg hneq]

/-- Witness for C1: on the board of the spec scenario (single tile of
value 2 at (1, 2)), a leftward slide takes the empty-cell step. -/
theorem C1_slide_step_witness :
    (mkBoard [[0, 0, 0, 0], [0, 0, 2, 0], [0, 0, 0, 0], [0, 0, 0, 0]]).slide ⟨1, 2⟩ ⟨0, -1⟩
      = ((mkBoard [[0, 0, 0, 0], [0, 0, 2, 0], [0, 0, 0, 0], [0, 0, 0, 0]]).move_tile
          ⟨1, 2⟩ (⟨1, 2⟩ + ⟨0, -1⟩)).slide (⟨1, 2⟩ + ⟨0, -1⟩) ⟨0, -1⟩ :=
  (C1_slide_step (mkBoard [[0, 0, 0, 0], [0, 0, 2, 0], [0, 0, 0, 0], [0, 0, 0, 0]])
    ⟨1, 2⟩ ⟨0, -1⟩ ⟨1, 2, 2⟩ (by decide) (by decide) (by decide) (by decide)).2.1
    (by decide) (by decide)

/-- C2: evaluation of the code at the failing input.  A column of four
equal tiles moved `down` yields two doubled tiles at rows 1 and 3 — not
stacked at the bottom edge — because `Board.down` iterates rows in
increasing order, processing the tiles farthest from the target edge
first; the spec ordering would yield the doubled tiles at rows 2 and 3.
The same line moved `right`, `left` or `up` does satisfy the claim. -/
theorem C2_down_order_bug :
    (mkBoard [[2, 0, 0, 0], [2, 0, 0, 0], [2, 0, 0, 0], [2, 0, 0, 0]]).down.to_list
      = [[0, 0, 0, 0], [4, 0, 0, 0], [0, 0, 0, 0], [4, 0, 0, 0]] ∧
    (mkBoard [[2, 0, 0, 0], [2, 0, 0, 0], [2, 0, 0, 0], [2, 0, 0, 0]]).down.to_list
      ≠ [[0, 0, 0, 0], [0, 0, 0, 0], [4, 0, 0, 0], [4, 0, 0, 0]] ∧
    (mkBoard [[2, 2, 2, 2], [0, 0, 0, 0], [0, 0, 0, 0], [0, 0, 0, 0]]).right.to_list
      = [[0, 0, 4, 4], [0, 0, 0, 0], [0, 0, 0, 0], [0, 0, 0, 0]] ∧
    (mkBoard [[2, 2, 2, 2], [0, 0, 0, 0], [0, 0, 0, 0], [0, 0, 0, 0]]).left.to_list
      = [[4, 4, 0, 0], [0, 0, 0, 0], [0, 0, 0, 0], [0, 0, 0, 0]] ∧
    (mkBoard [[2, 0, 0, 0], [2, 0, 0, 0], [2, 0, 0, 0], [2, 0, 0, 0]]).up.to_list
      = [[4, 0, 0, 0], [4, 0, 0, 0], [0, 0, 0, 0], [0, 0, 0, 0]] := by
  decide

/-- C3: evaluation of the code at the failing input.  On a board with a
tile of value 2 at (0, 0), `_empty_positions` nevertheless lists
(0, 0) — its guard `if col is not None:` tests the loop index, which is
never `None` — so it returns all 16 positions, and `place_tile` with
choice index 0 overwrites the occupied cell: the occupied-cell count is
unchanged instead of growing by one. -/
theorem C3_empty_positions_bug :
    Vec.mk 0 0 ∈ (mkBoard [[2, 0, 0, 0], [0, 0, 0, 0], [0, 0, 0, 0], [0, 0, 0, 0]])._empty_positions ∧
    (mkBoard [[2, 0, 0, 0], [0, 0, 0, 0], [0, 0, 0, 0], [0, 0, 0, 0]]).getT ⟨0, 0⟩
      = some ⟨0, 0, 2⟩ ∧
    ((mkBoard [[2, 0, 0, 0], [0, 0, 0, 0], [0, 0, 0, 0], [0, 0, 0, 0]])._empty_positions).length
      = 16 ∧
    (mkBoard [[2, 0, 0, 0], [0, 0, 0, 0], [0, 0, 0, 0], [0, 0, 0, 0]]).place_tile 0 0 (some 8)
      = some ((mkBoard [[2, 0, 0, 0], [0, 0, 0, 0], [0, 0, 0, 0], [0, 0, 0, 0]]).setT ⟨0, 0⟩
          (some ⟨0, 0, 8⟩)) ∧
    occupiedCount ((mkBoard [[2, 0, 0, 0], [0, 0, 0, 0], [0, 0, 0, 0], [0, 0, 0, 0]]).setT ⟨0, 0⟩
        (some ⟨0, 0, 8⟩)).tiles
      = occupiedCount (mkBoard [[2, 0, 0, 0], [0, 0, 0, 0], [0, 0, 0, 0], [0, 0, 0, 0]]).tiles := by
  decide

/-- C4: evaluation of the code at the failing input.  On a completely
full board `has_empty` is false, yet `place_tile` succeeds instead of
failing its assertion — `_empty_positions` returns all positions, so
`len(empties) > 0` always holds — and it overwrites the tile at (0, 0),
changing the board. -/
theorem C4_full_board_place_tile_bug :
    (mkBoard [[2, 2, 2, 2], [2, 2, 2, 2], [2, 2, 2, 2], [2, 2, 2, 2]]).has_empty = false ∧
    (mkBoard [[2, 2, 2, 2], [2, 2, 2, 2], [2, 2, 2, 2], [2, 2, 2, 2]]).place_tile 0 0 (some 4)
      = some ((mkBoard [[2, 2, 2, 2], [2, 2, 2, 2], [2, 2, 2, 2], [2, 2, 2, 2]]).setT ⟨0, 0⟩
          (some ⟨0, 0, 4⟩)) ∧
    (mkBoard [[2, 2, 2, 2], [2, 2, 2, 2], [2, 2, 2, 2], [2, 2, 2, 2]]).setT ⟨0, 0⟩
        (some ⟨0, 0, 4⟩)
      ≠ mkBoard [[2, 2, 2, 2], [2, 2, 2, 2], [2, 2, 2, 2], [2, 2, 2, 2]] := by
  decide

/-- C5 counterexample: a rectangular non-negative array smaller than the
board does not round-trip: `from_list [[5]]` on a fresh 4 x 4 board
succeeds, but `to_list` then returns the full 4 x 4 array, not `[[5]]`. -/
theorem C5_roundtrip_counterexample :
    ((Board.init 4 4).from_list [[5]]).map Board.to_list
      = some [[5, 0, 0, 0], [0, 0, 0, 0], [0, 0, 0, 0], [0, 0, 0, 0]] ∧
    ((Board.init 4 4).from_list [[5]]).map Board.to_list ≠ some [[5]] := by
  decide

/-- C9 counterexample: the out-of-bounds position (-1, 0) does not fail
fast: Python list indexing wraps negative indices, so `__getitem__`
returns the cell at (3, 0) — here an actual tile — instead of raising. -/
theorem C9_wraparound_counterexample :
    ¬ (mkBoard [[0, 0, 0, 0], [0, 0, 0, 0], [0, 0, 0, 0], [2, 0, 0, 0]]).in_bounds ⟨-1, 0⟩ ∧
    (mkBoard [[0, 0, 0, 0], [0, 0, 0, 0], [0, 0, 0, 0], [2, 0, 0, 0]]).getItem ⟨-1, 0⟩
      = some (some ⟨3, 0, 2⟩) := by
  decide

/-- C8: when `place_tile` is called without an explicit value, the new
tile carries `drawValue r`, which is 4 exactly when the injected draw
`r` exceeds 1/10 and 2 otherwise — i.e. value 4 with probability 0.9
and value 2 with probability 0.1 over a uniform draw on [0, 1). -/
theorem C8_value_draw (b : Board) (i : Nat) (r : ℚ) (b' : Board)
    (h : b.place_tile i r none = some b') :
    b' = b.setT (choicePos b i)
      (some ⟨(choicePos b i).row, (choicePos b i).col, drawValue r⟩) ∧
    (drawValue r = 4 ↔ r > 1 / 10) ∧
    (drawValue r = 2 ↔ ¬ r > 1 / 10) := by
  obtain ⟨_, heq⟩ := place_tile_eq b i r none b' h
  refine ⟨heq, ?_, ?_⟩ <;> by_cases hr : r > 1 / 10 <;> simp [drawValue, hr]

/-- Witness for C8 at the concrete draw r = 1/2 on an empty board. -/
theorem C8_value_draw_witness :
    ((Board.init 4 4).place_tile 0 (1 / 2) none
      = some ((Board.init 4 4).setT (choicePos (Board.init 4 4) 0)
          (some ⟨(choicePos (Board.init 4 4) 0).row, (choicePos (Board.init 4 4) 0).col,
            drawValue (1 / 2)⟩))) ∧
    ((Board.init 4 4).setT (choicePos (Board.init 4 4) 0)
        (some ⟨(choicePos (Board.init 4 4) 0).row, (choicePos (Board.init 4 4) 0).col,
          drawValue (1 / 2)⟩)
      = (Board.init 4 4).setT (choicePos (Board.init 4 4) 0)
        (some ⟨(choicePos (Board.init 4 4) 0).row, (choicePos (Board.init 4 4) 0).col,
          drawValue (1 / 2)⟩)) ∧
    (drawValue (1 / 2) = 4 ↔ (1 : ℚ) / 2 > 1 / 10) ∧
    (drawValue (1 / 2) = 2 ↔ ¬ (1 : ℚ) / 2 > 1 / 10) :=
  ⟨rfl, C8_value_draw (Board.init 4 4) 0 (1 / 2) _ rfl⟩

theorem pyListGet_eq_none_iff {α : Type} (xs : List α) (i : Int) :
    pyListGet xs i = none ↔ (i < -(xs.length : Int) ∨ (xs.length : Int) ≤ i) := by
  unfold pyListGet pyIdx
  by_cases h1 : 0 ≤ i ∧ i < (xs.length : Int)
  · rw [if_pos h1]
    have hlt : i.toNat < xs.length := by omega
    rw [Option.some_bind, List.getElem?_eq_getElem hlt]
    constructor
    · intro hc
      exact Option.noConfusion hc
    · intro hc
      exact absurd hc (by omega)
  · rw [if_neg h1]
    by_cases h2 : -(xs.length : Int) ≤ i ∧ i < 0
    · rw [if_pos h2]
      have hlt : ((xs.length : Int) + i).toNat < xs.length := by omega
      rw [Option.some_bind, List.getElem?_eq_getElem hlt]
      constructor
      · intro hc
        exact Option.noConfusion hc
      · intro hc
        exact absurd hc (by omega)
    · rw [if_neg h2]
      constructor
      · intro _
        omega
      · intro _
        rfl

theorem pyListGet_mem {α : Type} (xs : List α) (i : Int) (x : α)
    (h : pyListGet xs i = some x) : x ∈ xs := by
  unfold pyListGet pyIdx at h
  by_cases h1 : 0 ≤ i ∧ i < (xs.length : Int)
  · rw [if_pos h1, Option.some_bind] at h
    exact List.getElem?_mem h
  · rw [if_neg h1] at h
    by_cases h2 : -(xs.length : Int) ≤ i ∧ i < 0
    · rw [if_pos h2, Option.some_bind] at h
      exact List.getElem?_mem h
    · rw [if_neg h2] at h
      exact Option.noConfusion h

/-- C9 (amended): on a well-formed board, direct grid access raises
`IndexError` exactly when the row index falls outside [-rows, rows), or
the row index is inside that range (wrapping when negative) and the
column index falls outside [-cols, cols).  In particular access with an
index at or beyond a dimension, or below its negation, fails fast, but
a negative index within range wraps around Python-style and returns a
cell instead of failing. -/
theorem C9_getItem_error_iff (b : Board) (p : Vec) (hwf : b.WF) :
    b.getItem p = none ↔
      (p.row < -(b.rows : Int) ∨ (b.rows : Int) ≤ p.row) ∨
      ((-(b.rows : Int) ≤ p.row ∧ p.row < (b.rows : Int)) ∧
        (p.col < -(b.cols : Int) ∨ (b.cols : Int) ≤ p.col)) := by
  obtain ⟨hlen, hrows⟩ := hwf
  unfold Board.getItem
  cases ho : pyListGet b.tiles p.row with
  | none =>
    rw [Option.none_bind]
    rw [pyListGet_eq_none_iff, hlen] at ho
    exact iff_of_true rfl (Or.inl ho)
  | some r =>
    rw [Option.some_bind]
    have hrlen : r.length = b.cols := hrows r (pyListGet_mem _ _ _ ho)
    have hne : pyListGet b.tiles p.row ≠ none := by
      rw [ho]
      exact fun hc => Option.noConfusion hc
    have hnot : ¬(p.row < -((b.rows : Nat) : Int) ∨ ((b.rows : Nat) : Int) ≤ p.row) := by
      intro hx
      apply hne
      rw [pyListGet_eq_none_iff, hlen]
      exact hx
    have hrow_range : -(b.rows : Int) ≤ p.row ∧ p.row < (b.rows : Int) := by omega
    rw [pyListGet_eq_none_iff r p.col, hrlen]
    constructor
    · intro hx
      exact Or.inr ⟨hrow_range, hx⟩
    · intro hx
      rcases hx with hx | hx
      · exact absurd hx (by omega)
      · exact hx.2

/-- Witness for C9: reading row 4 of the default board raises. -/
theorem C9_getItem_error_iff_witness : (Board.init 4 4).getItem ⟨4, 0⟩ = none :=
  (C9_getItem_error_iff (Board.init 4 4) ⟨4, 0⟩ (by decide)).mpr (by decide)

/-- C7: every board operation — `from_list`, `place_tile`, `slide` and
the four direction moves — preserves the invariant that every tile's
stored (row, col) equals the grid slot holding it.  In this embedding a
slot holds at most one tile by construction, and the stored-position
property forbids the same tile contents occupying two distinct slots. -/
theorem C7_invariant_preservation (b : Board) (h : b.Inv) :
    (∀ values b', b.from_list values = some b' → b'.Inv) ∧
    (∀ i r v b', b.place_tile i r v = some b' → b'.Inv) ∧
    (∀ pos dir, (b.slide pos dir).Inv) ∧
    b.left.Inv ∧ b.right.Inv ∧ b.up.Inv ∧ b.down.Inv :=
  ⟨fun values b' hfl => Inv_from_list b values b' hfl h,
   fun i r v b' hpt => Inv_place_tile b i r v b' h hpt,
   fun pos dir => Inv_slide b pos dir h,
   Inv_left b h, Inv_right b h, Inv_up b h, Inv_down b h⟩

/-- Witness for C7 on the freshly constructed default board. -/
theorem C7_invariant_preservation_witness :
    (Board.init 4 4).left.Inv ∧ (Board.init 4 4).right.Inv ∧
    (Board.init 4 4).up.Inv ∧ (Board.init 4 4).down.Inv := by
  have hinv : (Board.init 4 4).Inv := by
    intro i j t hslot
    have hslot' : slot (List.replicate 4 (List.replicate 4 (none : Option Tile))) i j
        = some (some t) := hslot
    unfold slot at hslot'
    rw [List.getElem?_replicate] at hslot'
    by_cases hi : i < 4
    · rw [if_pos hi, Option.some_bind, List.getElem?_replicate] at hslot'
      by_cases hj : j < 4
      · rw [if_pos hj] at hslot'
        exact Option.noConfusion (Option.some.inj hslot')
      · rw [if_neg hj] at hslot'
        exact Option.noConfusion hslot'
    · rw [if_neg hi] at hslot'
      exact Option.noConfusion hslot'
  have H := C7_invariant_preservation (Board.init 4 4) hinv
  exact ⟨H.2.2.2.1, H.2.2.2.2.1, H.2.2.2.2.2.1, H.2.2.2.2.2.2⟩

/-! ## Score -/

theorem list_getD_range {α : Type} (l : List α) (d : α) :
    (List.range l.length).map (fun i => l.getD i d) = l := by
  induction l with
  | nil => rfl
  | cons a as ih =>
    rw [List.length_cons, List.range_succ_eq_map, List.map_cons, List.map_map]
    have hcomp : ((fun i => (a :: as).getD i d) ∘ Nat.succ) = fun i => as.getD i d := rfl
    rw [hcomp, ih]
    rfl

theorem foldlM_opt : ∀ (l : List Nat) (body : Int → Nat → Option Int) (v : Nat → Int),
    (∀ acc c, c ∈ l → body acc c = some (acc + v c)) →
    ∀ acc, l.foldlM body acc = some (acc + (l.map v).sum) := by
  intro l
  induction l with
  | nil =>
    intro body v _ acc
    show some acc = some (acc + ([] : List Int).sum)
    rw [List.sum_nil, Int.add_zero]
  | cons c cs ih =>
    intro body v hbody acc
    have h1 : List.foldlM body acc (c :: cs)
        = (body acc c).bind (fun x => List.foldlM body x cs) := rfl
    rw [h1, hbody acc c (List.mem_cons_self c cs), Option.some_bind,
      ih body v (fun a d hd => hbody a d (List.mem_cons_of_mem c hd)) (acc + v c),
      List.map_cons, List.sum_cons]
    rw [Int.add_assoc]

theorem to_list_length (b : Board) : b.to_list.length = b.tiles.length := by
  unfold Board.to_list
  rw [List.length_map]

theorem to_list_row_length (b : Board) (row : Nat) (hrow : row < b.tiles.length) :
    (b.to_list.getD row []).length = (b.tiles.getD row []).length := by
  unfold Board.to_list
  rw [List.getD_eq_getElem?_getD, List.getD_eq_getElem?_getD, List.getElem?_map,
    List.getElem?_eq_getElem hrow]
  show ((b.tiles[row]).map _).length = _
  rw [List.length_map]
  rfl

theorem score_eq (b : Board) (hwf : b.WF) :
    b.score = some ((b.to_list.map (fun r => r.sum)).sum) := by
  obtain ⟨hlen, hrows⟩ := hwf
  have hlen_to : b.to_list.length = b.rows := by rw [to_list_length, hlen]
  unfold Board.score
  have houter : ∀ acc row, row ∈ List.range b.rows →
      (List.range b.cols).foldlM
        (fun acc2 col => do
          let rw ← b.to_list[row]?
          let x ← rw[col]?
          pure (acc2 + x)) acc
      = some (acc + (b.to_list.getD row []).sum) := by
    intro acc row hrow
    rw [List.mem_range] at hrow
    have hrow' : row < b.to_list.length := by rw [hlen_to]; exact hrow
    have hrowt : row < b.tiles.length := by rw [hlen]; exact hrow
    have hgetrow : b.to_list[row]? = some (b.to_list.getD row []) := by
      rw [List.getD_eq_getElem?_getD, List.getElem?_eq_getElem hrow']
      rfl
    have hrlen : (b.to_list.getD row []).length = b.cols := by
      rw [to_list_row_length b row hrowt]
      have hgd : b.tiles.getD row [] = b.tiles[row] := by
        rw [List.getD_eq_getElem?_getD, List.getElem?_eq_getElem hrowt]
        rfl
      rw [hgd]
      exact hrows _ (List.getElem_mem hrowt)
    have hinner := foldlM_opt (List.range b.cols)
      (fun acc2 col => do
        let rw ← b.to_list[row]?
        let x ← rw[col]?
        pure (acc2 + x))
      (fun col => (b.to_list.getD row []).getD col 0) ?_ acc
    · rw [hinner]
      congr 1
      congr 1
      have : (fun col => (b.to_list.getD row []).getD col 0)
          = fun col => (b.to_list.getD row []).getD col 0 := rfl
      rw [show List.range b.cols = List.range (b.to_list.getD row []).length by rw [hrlen]]
      rw [list_getD_range]
    · intro acc2 col hcol
      rw [List.mem_range] at hcol
      have hcol' : col < (b.to_list.getD row []).length := by rw [hrlen]; exact hcol
      show (b.to_list[row]?.bind fun rw => (rw[col]?).bind fun x => pure (acc2 + x))
        = some (acc2 + (b.to_list.getD row []).getD col 0)
      rw [hgetrow, Option.some_bind, List.getElem?_eq_getElem hcol', Option.some_bind]
      have hgd2 : (b.to_list.getD row []).getD col 0 = (b.to_list.getD row [])[col] := by
        rw [List.getD_eq_getElem?_getD, List.getElem?_eq_getElem hcol']
        rfl
      rw [hgd2]
      rfl
  have h := foldlM_opt (List.range b.rows) _
    (fun row => (b.to_list.getD row []).sum) houter 0
  rw [h, Int.zero_add]
  congr 1
  rw [show List.range b.rows = List.range b.to_list.length by rw [hlen_to]]
  rw [show (fun row => (b.to_list.getD row []).sum)
      = (fun r => List.sum r) ∘ (fun i => b.to_list.getD i []) from rfl]
  rw [← List.map_map, list_getD_range]

theorem sum_filter_nonzero (l : List Int) : (l.filter (fun v => v ≠ 0)).sum = l.sum := by
  induction l with
  | nil => rfl
  | cons a as ih =>
    rw [List.filter_cons]
    by_cases ha : a = 0
    · rw [if_neg (by simp [ha]), ih, List.sum_cons, ha, Int.zero_add]
    · rw [if_pos (by simp [ha]), List.sum_cons, List.sum_cons, ih]

theorem score_eq_gridSum (b : Board) (hwf : b.WF) :
    b.score = some (gridSum b.tiles) := by
  rw [score_eq b hwf]
  congr 1
  unfold Board.to_list gridSum
  rw [List.map_map]
  rfl

/-- C6: for every well-formed board, `score()` returns the sum of the
non-zero entries of `to_list()`, i.e. the sum of the values of all
tiles on the board. -/
theorem C6_score_eq_sum (b : Board) (hwf : b.WF) :
    b.score = some ((b.to_list.map (fun r => (r.filter (fun v => v ≠ 0)).sum)).sum) := by
  rw [score_eq b hwf]
  congr 2
  apply List.map_congr_left
  intro r _
  rw [sum_filter_nonzero]

/-- Witness for C6 on a concrete board with tiles and empty cells. -/
theorem C6_score_eq_sum_witness :
    (mkBoard [[2, 0, 2, 0], [2, 2, 2, 0], [2, 2, 0, 0], [2, 2, 2, 2]]).score
      = some (((mkBoard [[2, 0, 2, 0], [2, 2, 2, 0], [2, 2, 0, 0], [2, 2, 2, 2]]).to_list.map
          (fun r => (r.filter (fun v => v ≠ 0)).sum)).sum) :=
  C6_score_eq_sum (mkBoard [[2, 0, 2, 0], [2, 2, 2, 0], [2, 2, 0, 0], [2, 2, 2, 2]]) (by decide)

/-- C10: each of the four direction moves leaves `score()` unchanged on
a well-formed board: sliding moves tiles without changing values, and a
merge replaces two tiles of value v with one tile of value 2v, so the
total tile value is preserved. -/
theorem C10_moves_preserve_score (b : Board) (hwf : b.WF) :
    b.left.score = b.score ∧ b.right.score = b.score ∧
    b.up.score = b.score ∧ b.down.score = b.score := by
  have hb := score_eq_gridSum b hwf
  obtain ⟨_, _, hwfL, hsL⟩ := Pres_left b hwf
  obtain ⟨_, _, hwfR, hsR⟩ := Pres_right b hwf
  obtain ⟨_, _, hwfU, hsU⟩ := Pres_up b hwf
  obtain ⟨_, _, hwfD, hsD⟩ := Pres_down b hwf
  refine ⟨?_, ?_, ?_, ?_⟩
  · rw [score_eq_gridSum _ hwfL, hsL, hb]
  · rw [score_eq_gridSum _ hwfR, hsR, hb]
  · rw [score_eq_gridSum _ hwfU, hsU, hb]
  · rw [score_eq_gridSum _ hwfD, hsD, hb]

/-- Witness for C10 on the concrete merging board of the test suite. -/
theorem C10_moves_preserve_score_witness :
    (mkBoard [[2, 0, 2, 0], [2, 2, 2, 0], [2, 2, 0, 0], [2, 2, 2, 2]]).left.score
        = (mkBoard [[2, 0, 2, 0], [2, 2, 2, 0], [2, 2, 0, 0], [2, 2, 2, 2]]).score ∧
      (mkBoard [[2, 0, 2, 0], [2, 2, 2, 0], [2, 2, 0, 0], [2, 2, 2, 2]]).right.score
        = (mkBoard [[2, 0, 2, 0], [2, 2, 2, 0], [2, 2, 0, 0], [2, 2, 2, 2]]).score ∧
      (mkBoard [[2, 0, 2, 0], [2, 2, 2, 0], [2, 2, 0, 0], [2, 2, 2, 2]]).up.score
        = (mkBoard [[2, 0, 2, 0], [2, 2, 2, 0], [2, 2, 0, 0], [2, 2, 2, 2]]).score ∧
      (mkBoard [[2, 0, 2, 0], [2, 2, 2, 0], [2, 2, 0, 0], [2, 2, 2, 2]]).down.score
        = (mkBoard [[2, 0, 2, 0], [2, 2, 2, 0], [2, 2, 0, 0], [2, 2, 2, 2]]).score :=
  C10_moves_preserve_score (mkBoard [[2, 0, 2, 0], [2, 2, 2, 0], [2, 2, 0, 0], [2, 2, 2, 2]])
    (by decide)

/-! ## Round-trip of from_list and to_list -/

theorem writeCells_eq (vrow : List Int) (row nc : Nat) (hv : vrow.length = nc) :
    ∀ (k col : Nat) (g : Grid) (r1 r2 : List (Option Tile)),
    g[row]? = some (r1 ++ r2) → r1.length = col → r2.length = k → col + k = nc →
    writeCells vrow row g col k = some (g.set row (r1 ++ convRow row col (vrow.drop col))) := by
  intro k
  induction k with
  | zero =>
    intro col g r1 r2 hrow hr1 hr2 hcol
    cases r2 with
    | cons x xs => exact absurd hr2 (by simp)
    | nil =>
      rw [List.append_nil] at hrow
      have hdrop : vrow.drop col = [] := by
        have : col = vrow.length := by omega
        rw [this, List.drop_length]
      rw [hdrop]
      show some g = some (g.set row (r1 ++ convRow row col []))
      rw [show convRow row col [] = [] from rfl, List.append_nil,
        set_of_getElem? g row r1 hrow]
  | succ k ih =>
    intro col g r1 r2 hrow hr1 hr2 hcol
    cases r2 with
    | nil => exact absurd hr2 (by simp)
    | cons c r2' =>
      have hcolv : col < vrow.length := by omega
      have hvcol : vrow[col]? = some vrow[col] := List.getElem?_eq_getElem hcolv
      have hglen : row < g.length := by
        by_contra hge
        rw [List.getElem?_eq_none (Nat.le_of_not_lt hge)] at hrow
        exact Option.noConfusion hrow
      have hrowlen : col < (r1 ++ c :: r2').length := by
        rw [List.length_append, List.length_cons]
        omega
      have hwc : writeCell g row col vrow[col]
          = some (g.set row ((r1 ++ c :: r2').set col
              (if vrow[col] = 0 then none
               else some ⟨(row : Int), (col : Int), vrow[col]⟩))) := by
        unfold writeCell
        rw [hrow]
        show (if col < (r1 ++ c :: r2').length then _ else none) = _
        rw [if_pos hrowlen]
      have hset : (r1 ++ c :: r2').set col
          (if vrow[col] = 0 then none
           else some ⟨(row : Int), (col : Int), vrow[col]⟩)
          = r1 ++ (if vrow[col] = 0 then none
              else some ⟨(row : Int), (col : Int), vrow[col]⟩) :: r2' := by
        rw [List.set_append_right _ _ (by omega), hr1, Nat.sub_self]
        rfl
      have hstep : writeCells vrow row g col (k + 1)
          = writeCells vrow row (g.set row (r1 ++ (if vrow[col] = 0 then none
              else some ⟨(row : Int), (col : Int), vrow[col]⟩) :: r2')) (col + 1) k := by
        show ((vrow[col]?).bind fun v => (writeCell g row col v).bind fun g' =>
          writeCells vrow row g' (col + 1) k) = _
        rw [hvcol, Option.some_bind, hwc, Option.some_bind, hset]
      rw [hstep]
      have hrow' : (g.set row (r1 ++ (if vrow[col] = 0 then none
          else some ⟨(row : Int), (col : Int), vrow[col]⟩) :: r2'))[row]?
          = some ((r1 ++ [if vrow[col] = 0 then none
              else some ⟨(row : Int), (col : Int), vrow[col]⟩]) ++ r2') := by
        rw [List.getElem?_set_self' , List.getElem?_eq_getElem hglen]
        show some _ = some _
        rw [List.append_assoc]
        rfl
      have hih := ih (col + 1)
        (g.set row (r1 ++ (if vrow[col] = 0 then none
          else some ⟨(row : Int), (col : Int), vrow[col]⟩) :: r2'))
        (r1 ++ [if vrow[col] = 0 then none
          else some ⟨(row : Int), (col : Int), vrow[col]⟩]) r2'
        hrow' (by rw [List.length_append]; simp [hr1]) (by simpa using hr2) (by omega)
      rw [hih, List.set_set]
      congr 1
      congr 1
      have hdrop : vrow.drop col = vrow[col] :: vrow.drop (col + 1) :=
        List.drop_eq_getElem_cons hcolv
      rw [hdrop]
      show (r1 ++ [_]) ++ convRow row (col + 1) (vrow.drop (col + 1))
        = r1 ++ (if vrow[col] = 0 then none
            else some ⟨(row : Int), (col : Int), vrow[col]⟩)
          :: convRow row (col + 1) (vrow.drop (col + 1))
      rw [List.append_assoc]
      rfl

theorem fromRows_eq (nc : Nat) :
    ∀ (values : List (List Int)) (g1 g2 : Grid),
    (∀ vr ∈ values, vr.length = nc) → g2.length = values.length →
    (∀ r ∈ g2, r.length = nc) →
    fromRows nc (g1 ++ g2) g1.length values = some (g1 ++ convGrid g1.length values) := by
  intro values
  induction values with
  | nil =>
    intro g1 g2 _ hlen _
    have : g2 = [] := List.eq_nil_of_length_eq_zero (by simpa using hlen)
    subst this
    rw [List.append_nil]
    show some g1 = some (g1 ++ convGrid g1.length [])
    rw [show convGrid g1.length [] = [] from rfl, List.append_nil]
  | cons vrow rest ih =>
    intro g1 g2 hvals hlen hrows
    cases g2 with
    | nil => exact absurd hlen (by simp)
    | cons r g2' =>
      have hwc := writeCells_eq vrow g1.length nc
        (hvals vrow (List.mem_cons_self _ _)) nc 0 (g1 ++ r :: g2') [] r
        (by rw [List.nil_append, List.getElem?_append_right (Nat.le_refl _), Nat.sub_self]; simp)
        rfl (hrows r (List.mem_cons_self _ _)) (Nat.zero_add nc)
      have hstep : fromRows nc (g1 ++ r :: g2') g1.length (vrow :: rest)
          = (writeCells vrow g1.length (g1 ++ r :: g2') 0 nc).bind
            (fun g' => fromRows nc g' (g1.length + 1) rest) := rfl
      rw [hstep, hwc, Option.some_bind]
      have hsetform : (g1 ++ r :: g2').set g1.length
          ([] ++ convRow g1.length 0 (vrow.drop 0))
          = (g1 ++ [convRow g1.length 0 vrow]) ++ g2' := by
        rw [List.drop_zero, List.nil_append,
          List.set_append_right _ _ (Nat.le_refl _), Nat.sub_self, List.append_assoc]
        rfl
      rw [hsetform]
      have hlen1 : (g1 ++ [convRow g1.length 0 vrow]).length = g1.length + 1 := by
        rw [List.length_append]
        rfl
      have hih := ih (g1 ++ [convRow g1.length 0 vrow]) g2'
        (fun vr hvr => hvals vr (List.mem_cons_of_mem _ hvr))
        (by simpa using hlen) (fun r hr => hrows r (List.mem_cons_of_mem _ hr))
      rw [hlen1] at hih
      rw [hih, List.append_assoc]
      rfl

theorem convRow_to_vals (row : Nat) : ∀ (vs : List Int) (col : Nat),
    (convRow row col vs).map (fun c =>
      match c with
      | none => 0
      | some t => t.value) = vs := by
  intro vs
  induction vs with
  | nil =>
    intro col
    rfl
  | cons v vs ih =>
    intro col
    show (_ :: (convRow row (col + 1) vs).map _) = v :: vs
    rw [ih (col + 1)]
    by_cases hv : v = 0
    · rw [if_pos hv, hv]
    · rw [if_neg hv]

theorem to_list_convGrid : ∀ (values : List (List Int)) (row : Nat),
    (convGrid row values).map (fun r =>
      r.map fun c =>
        match c with
        | none => 0
        | some t => t.value) = values := by
  intro values
  induction values with
  | nil =>
    intro row
    rfl
  | cons vr rest ih =>
    intro row
    show (convRow row 0 vr).map _ :: (convGrid (row + 1) rest).map _ = vr :: rest
    rw [convRow_to_vals row vr 0, ih (row + 1)]

/-- C5 (amended): for every well-formed board and every rectangular
integer array whose dimensions equal the board's rows x cols,
`from_list` succeeds and `to_list` then returns exactly the array;
moreover the resulting grid is precisely the freshly constructed tiles
`convGrid 0 values`, independent of the previous grid contents, so
`from_list` fully replaces the grid with fresh tiles. -/
theorem C5_from_to_roundtrip (b : Board) (values : List (List Int))
    (hwf : b.WF) (hr : values.length = b.rows)
    (hc : ∀ r ∈ values, r.length = b.cols) :
    ∃ b', b.from_list values = some b' ∧ b'.to_list = values ∧
      b'.tiles = convGrid 0 values := by
  obtain ⟨hlen, hrows⟩ := hwf
  cases values with
  | nil =>
    have htiles : b.tiles = [] := List.eq_nil_of_length_eq_zero (by rw [hlen, ← hr]; rfl)
    refine ⟨b, rfl, ?_, ?_⟩
    · unfold Board.to_list
      rw [htiles]
      rfl
    · rw [htiles]
      rfl
  | cons v0 rest =>
    have hnc : ((v0 :: rest).headD []).length = b.cols := hc v0 (List.mem_cons_self _ _)
    have hfr := fromRows_eq b.cols (v0 :: rest) [] b.tiles
      (fun vr hvr => hc vr hvr) (by rw [hlen, hr]) (fun r hrm => hrows r hrm)
    rw [List.nil_append] at hfr
    refine ⟨{ b with tiles := convGrid 0 (v0 :: rest) }, ?_, ?_, rfl⟩
    · unfold Board.from_list
      rw [hnc]
      rw [show (0 : Nat) = ([] : Grid).length from rfl, hfr]
      rfl
    · show (convGrid 0 (v0 :: rest)).map _ = v0 :: rest
      exact to_list_convGrid (v0 :: rest) 0

/-- Witness for C5 on the round-trip array of the test suite. -/
theorem C5_from_to_roundtrip_witness :
    ∃ b', (Board.init 4 4).from_list [[0, 2, 2, 4], [2, 0, 2, 8], [8, 2, 2, 4], [4, 2, 2, 0]]
        = some b' ∧
      b'.to_list = [[0, 2, 2, 4], [2, 0, 2, 8], [8, 2, 2, 4], [4, 2, 2, 0]] ∧
      b'.tiles = convGrid 0 [[0, 2, 2, 4], [2, 0, 2, 8], [8, 2, 2, 4], [4, 2, 2, 0]] :=
  C5_from_to_roundtrip (Board.init 4 4) [[0, 2, 2, 4], [2, 0, 2, 8], [8, 2, 2, 4], [4, 2, 2, 0]]
    (by decide) (by decide) (by decide)

/-- At an in-bounds position of a well-formed board, the
Python-semantics access `__getitem__` succeeds and returns exactly the
cell the movement logic reads with `Board.getT`. -/
theorem getItem_eq_getT (b : Board) (p : Vec) (hwf : b.WF) (hp : b.in_bounds p) :
    b.getItem p = some (b.getT p) := by
  obtain ⟨⟨h1, h2⟩, ⟨h3, h4⟩⟩ := hp
  obtain ⟨hlen, hrows⟩ := hwf
  have hrlt : p.row.toNat < b.tiles.length := by omega
  have hrow_len : (b.tiles[p.row.toNat]).length = b.cols := hrows _ (List.getElem_mem hrlt)
  have hclt : p.col.toNat < (b.tiles[p.row.toNat]).length := by omega
  unfold Board.getItem pyListGet pyIdx
  rw [if_pos ⟨h1, by rw [hlen]; exact h2⟩, Option.some_bind,
    List.getElem?_eq_getElem hrlt, Option.some_bind,
    if_pos ⟨h3, by rw [hrow_len]; exact h4⟩, Option.some_bind,
    List.getElem?_eq_getElem hclt]
  rw [getT_eq_getD]
  have hgd : b.tiles.getD p.row.toNat [] = b.tiles[p.row.toNat] := by
    rw [List.getD_eq_getElem?_getD, List.getElem?_eq_getElem hrlt]
    rfl
  rw [hgd]
  have hgd2 : (b.tiles[p.row.toNat]).getD p.col.toNat none
      = b.tiles[p.row.toNat][p.col.toNat] := by
    rw [List.getD_eq_getElem?_getD, List.getElem?_eq_getElem hclt]
    rfl
  rw [hgd2]

end FiveTwelve
